import Mathlib

/-!
Verification development for the GitLab-Chat-Bot RAG pipeline.

Shallow embedding of the orchestration core:
  * `src/api/utils/textProcessor.js` (normalizeQuery, extractKeywords),
  * `src/api/services/rag.js` (RAGService: getCacheKey, retrieveContext,
    rerankResults, query, conversation history management),
  * `src/backend/src/services/llm.js` (LLMService: buildContext,
    generateResponse, assessConfidence, verifyClaimsInContext, rewriteQuery).

Modelling conventions:
  * JavaScript strings are `List Char` (`Str`).
  * Similarity scores and rerank boosts are exact: the JS floating-point
    constants 0.7 / 0.1 / 0.05 are all multiples of 1/100, so scores are
    carried in integer hundredths (`Int`): threshold 70, title boost 10,
    recency boost 5.  For the magnitudes involved the float comparisons of
    the source coincide with the exact rational ones, which in hundredths
    are integer comparisons.
  * Ratio comparisons (`x > 0.5`, `x < 0.8`, `len > 1.5 * len`) are carried
    as cross-multiplied integer comparisons, again exact for integer counts.
  * Timestamps are integer milliseconds (`Int`).
  * `Map` / `NodeCache` are association lists with explicit first-set
    insertion order; the cache is modelled within one TTL window (NodeCache
    expiry never fires inside the scenarios the claims quantify over).
  * Fallible external calls (vector search, generative backend) are
    `Except Unit _`-valued parameters of the pipeline.
-/

namespace GitLabBot

/-- JavaScript strings, modelled as lists of characters. -/
abbrev Str : Type := List Char

/-- Whitespace test used for the JS regexes `\s`, `trim()`. -/
def isWs (c : Char) : Bool := c.isWhitespace

/-- Models `String.prototype.toLowerCase()`. -/
def lower (s : Str) : Str := s.map Char.toLower

/-- Models `String.prototype.trim()`: drop leading and trailing whitespace. -/
def trimStr (s : Str) : Str :=
  ((s.dropWhile isWs).reverse.dropWhile isWs).reverse

/-- Drop the first of two adjacent spaces, repeatedly. -/
def squashSpaces : Str → Str
  | [] => []
  | [c] => [c]
  | a :: b :: cs =>
    if a = ' ' && b = ' ' then squashSpaces (b :: cs)
    else a :: squashSpaces (b :: cs)

/-- Models `replace(/\s+/g, ' ')`: collapse every maximal whitespace run to one
space (each whitespace character is first normalized to a plain space, then
adjacent spaces are squashed — the same function as the JS regex replace). -/
def collapseWs (s : Str) : Str :=
  squashSpaces (s.map (fun c => if isWs c then ' ' else c))

/-- Substring test (JS `String.prototype.includes` / substring regex match). -/
def containsSub (needle hay : Str) : Bool :=
  hay.tails.any (fun t => needle.isPrefixOf t)

/-- Maximal non-separator runs: `split(/\s+/)` with empty fragments dropped
(every use in the source filters the fragments by a positive length anyway). -/
def splitWs (s : Str) : List Str :=
  (s.splitOnP isWs).filter (fun w => w ≠ [])

/-- Models `split('\n')` (empty fragments kept, as in JS). -/
def splitNl (s : Str) : List Str := s.splitOnP (· = '\n')

/-- The apostrophe character, U+0027. -/
def apos : Char := Char.ofNat 39

/-- Helper gluing two literals around an apostrophe. -/
def phr (a b : String) : Str := a.data ++ apos :: b.data

/-! ## TextProcessor (src/api/utils/textProcessor.js) -/

/-- Models `normalizeQuery(query)`: `query.trim().replace(/\s+/g,' ').toLowerCase()`. -/
def normalizeQuery (q : Str) : Str := lower (collapseWs (trimStr q))

/-- Stopword set of `extractKeywords`. -/
def keywordStopwords : List Str :=
  ["a", "an", "and", "are", "as", "at", "be", "by", "for", "from",
   "has", "he", "in", "is", "it", "its", "of", "on", "that", "the",
   "to", "was", "will", "with", "what", "when", "where", "who", "how"].map
    String.data

/-- JS `\w`: ASCII letters, digits, underscore. -/
def isWordChar (c : Char) : Bool := c.isAlphanum || c = '_'

/-- Models `[...new Set(words)]`: deduplicate keeping the first occurrence. -/
def dedupFirst : List Str → List Str
  | [] => []
  | w :: ws => w :: (dedupFirst ws).filter (· ≠ w)

/-- Models `extractKeywords(query)`: lowercase, delete non-word non-space characters
(`replace(/[^\w\s]/g,'')`), split on whitespace, keep words of length > 2
outside the stopword set, deduplicate. -/
def extractKeywords (q : Str) : List Str :=
  let cleaned := (lower q).filter (fun c => isWordChar c || isWs c)
  let ws := (splitWs cleaned).filter
    (fun w => 2 < w.length && !keywordStopwords.contains w)
  dedupFirst ws

/-! ## Data model (spec §3, shapes used by rag.js / llm.js) -/

/-- Chunk metadata attached by the indexing pipeline and read by the
reranker / context builder.  `scrapedAt` is an integer millisecond
timestamp (the source stores an ISO string and converts with `new Date`). -/
structure Metadata where
  title : Str
  source : Str
  scrapedAt : Int
deriving DecidableEq, Repr

/-- A retrieval result (Passage).  `score` is the similarity score in
integer hundredths, `none` when the vector store returned no score.
Passage ids are opaque; naturals stand in for the `chunk_<n>` strings. -/
structure RResult where
  id : Nat
  text : Str
  score : Option Int
  metadata : Metadata
deriving DecidableEq, Repr

/-- config.rag (src/api/config/index.js): `topK: 5`. -/
def ragTopK : Nat := 5

/-- config.rag: `similarityThreshold: 0.7`, in hundredths. -/
def similarityThreshold : Int := 70

/-! ## Result cache and conversation store (association lists) -/

/-- Models `Map.get` / `NodeCache.get` (within TTL): first entry with the key. -/
def assocFind {α β : Type} [DecidableEq α] (k : α) : List (α × β) → Option β
  | [] => none
  | p :: ps => if p.1 = k then some p.2 else assocFind k ps

/-- Models `Map.set` / `NodeCache.set`: update in place if present (JS maps keep the
original insertion position of an updated key), else append. -/
def assocSet {α β : Type} [DecidableEq α] (k : α) (v : β) :
    List (α × β) → List (α × β)
  | [] => [(k, v)]
  | p :: ps => if p.1 = k then (k, v) :: ps else p :: assocSet k v ps

/-! ## RAGService (src/api/services/rag.js) -/

/-- Models `getCacheKey(query, sessionId = null)`: the normalized query, prefixed
with `sessionId:` only when a session id is supplied. -/
def getCacheKey (query : Str) (sessionId : Option Str) : Str :=
  match sessionId with
  | some sid => sid ++ ':' :: normalizeQuery query
  | none => normalizeQuery query

/-- The threshold filter of `retrieveContext`:
`results.filter(result => !result.score || result.score >= threshold)`.
JS falsiness of `result.score` covers a missing/null score and a score of 0. -/
def keepResult (r : RResult) : Bool :=
  match r.score with
  | none => true
  | some v => v = 0 || similarityThreshold ≤ v

/-- Models `retrieveContext(query, topK)` against an explicit cache state and an
explicit vector-search collaborator.  Returns the result (an exception when
`vectorStore.search` throws — the source logs and rethrows), the updated
cache, and whether the retriever was actually invoked. -/
def retrieveContext (search : Str → Nat → Except Unit (List RResult))
    (cache : List (Str × List RResult)) (query : Str) (topK : Nat := ragTopK) :
    Except Unit (List RResult) × List (Str × List RResult) × Bool :=
  let cacheKey := getCacheKey query none
  match assocFind cacheKey cache with
  | some cachedResults => (.ok cachedResults, cache, false)
  | none =>
    match search query topK with
    | .error e => (.error e, cache, true)
    | .ok results =>
      let filteredResults := results.filter keepResult
      (.ok filteredResults, assocSet cacheKey filteredResults cache, true)

/-- Models `Array.from(new Map(allResults.map(r => [r.id, r])).values())`: each
`map.set(r.id, r)` updates an existing key in place (keeping its insertion
position) or appends a new key, exactly the `assocSet` semantics. -/
def dedupById (rs : List RResult) : List RResult :=
  (rs.foldl (fun m r => assocSet r.id r m) ([] : List (Nat × RResult))).map (·.2)

/-- A reranked result: the original result plus `finalScore` (hundredths). -/
structure RankedResult where
  base : RResult
  finalScore : Int
deriving DecidableEq, Repr

/-- The boost accumulation of `rerankResults`: +0.1 (10 hundredths) for each
extracted keyword contained in the lowercased title, +0.05 (5 hundredths)
when the chunk was scraped less than 30 days (2592000000 ms) before `now`. -/
def boostScore (keywords : List Str) (now : Int) (r : RResult) : Int :=
  let titleBoost := keywords.foldl
    (fun b k => if containsSub k (lower r.metadata.title) then b + 10 else b) 0
  let recencyBoost := if now - r.metadata.scrapedAt < 2592000000 then 5 else 0
  titleBoost + recencyBoost

/-- Descending comparison used to model
`.sort((a, b) => b.finalScore - a.finalScore)`. -/
def scoreGe (a b : RankedResult) : Bool := b.finalScore ≤ a.finalScore

/-- Stable insertion step of the descending sort. -/
def insertDesc (x : RankedResult) : List RankedResult → List RankedResult
  | [] => [x]
  | y :: ys => if scoreGe x y then x :: y :: ys else y :: insertDesc x ys

/-- Models `.sort((a, b) => b.finalScore - a.finalScore)`: a stable descending sort
by `finalScore` (JS `Array.prototype.sort` is stable; right-fold insertion
keeps the original relative order of equal scores). -/
def sortByScoreDesc (l : List RankedResult) : List RankedResult :=
  l.foldr insertDesc []

/-- Models `rerankResults(results, query)`: attach
`finalScore = (result.score || 0) + boostScore` and sort descending.
(`result.score || 0` maps both a missing score and a 0 score to 0.) -/
def rerankResults (results : List RResult) (query : Str) (now : Int) :
    List RankedResult :=
  let keywords := extractKeywords query
  sortByScoreDesc (results.map (fun r =>
    { base := r, finalScore := r.score.getD 0 + boostScore keywords now r }))

/-! ## Conversation memory (rag.js lines 164–198) -/

inductive Role where
  | user
  | assistant
deriving DecidableEq, Repr

/-- A stored conversation turn (`{...message, timestamp}`; the ISO timestamp
string is carried as the integer clock reading that produced it). -/
structure Turn where
  role : Role
  content : Str
  timestamp : Int
deriving DecidableEq, Repr

/-- The per-session conversation store (`this.conversationStore : Map`). -/
abbrev ConvStore : Type := List (Str × List Turn)

/-- JS falsiness of a `sessionId` argument: absent (`null`) or empty string. -/
def sessionFalsy : Option Str → Bool
  | none => true
  | some s => s.isEmpty

/-- Models `getConversationHistory(sessionId)`. -/
def getConversationHistory (store : ConvStore) (sessionId : Option Str) :
    List Turn :=
  match sessionId with
  | none => []
  | some sid => if sid.isEmpty then [] else (assocFind sid store).getD []

/-- Models `addToConversationHistory(sessionId, message)`: no-op on a falsy session
id; otherwise push the turn and, when the history exceeds 10 entries,
`shift()` a single entry off the front. -/
def addToConversationHistory (store : ConvStore) (now : Int)
    (sessionId : Option Str) (role : Role) (content : Str) : ConvStore :=
  match sessionId with
  | none => store
  | some sid =>
    if sid.isEmpty then store
    else
      let history := (assocFind sid store).getD []
      let history := history ++ [⟨role, content, now⟩]
      let history := if 10 < history.length then history.drop 1 else history
      assocSet sid history store

/-! ## LLMService (src/backend/src/services/llm.js) -/

/-- Confidence labels of `assessConfidence`. -/
inductive Conf where
  | low
  | medium
  | high
deriving DecidableEq, Repr

/-- Models `buildContext(retrievedChunks)`: empty string for no chunks, otherwise a
header followed by one `[Source N: title]` block per chunk. -/
def buildContext (retrievedChunks : List RResult) : Str :=
  if retrievedChunks = [] then []
  else
    let header : Str :=
      "Here is relevant information from GitLab".data ++ apos ::
        "s Handbook and Direction pages:\n\n".data
    let blocks := retrievedChunks.enum.map (fun (p : Nat × RResult) =>
      "[Source ".data ++ (Nat.repr (p.1 + 1)).data ++ ": ".data ++
        p.2.metadata.title ++ "]\n".data ++ p.2.text ++ "\n\n".data)
    header ++ blocks.flatten

/-- The fixed uncertainty-phrase list of `assessConfidence`. -/
def uncertaintyPhrases : List Str :=
  [phr "i don" "t know",
   phr "i" "m not sure",
   "i cannot find".data,
   "not mentioned".data,
   phr "doesn" "t contain",
   "no information about".data,
   phr "i don" "t have information"]

/-- Models `/\[source \d+\]/i.test(lowerResponse)`: some substring of the lowercased
response is `[source ` followed by one or more digits and `]`. -/
def hasSourceMarker (s : Str) : Bool :=
  (lower s).tails.any (fun t =>
    "[source ".data.isPrefixOf t &&
      (let rest := t.drop 8
       let digits := rest.takeWhile Char.isDigit
       digits ≠ [] && (rest.drop digits.length).headD ' ' = ']'))

/-- Models `/".*?"/i.test(response)`: two double-quote characters on one line (JS `.`
does not cross a newline). -/
def hasQuotedSpan (s : Str) : Bool :=
  s.tails.any (fun t =>
    match t with
    | [] => false
    | c :: rest =>
      c = '"' && (rest.takeWhile (· ≠ '\n')).any (· = '"'))

/-- The per-sentence word list of `verifyClaimsInContext`: lowercase, split on
whitespace, keep words longer than 3 characters outside a small stopword
list.  Punctuation is not stripped here (faithful to the source). -/
def claimWords (sentence : Str) : List Str :=
  (splitWs (lower sentence)).filter (fun w =>
    3 < w.length &&
      !(["this", "that", "with", "from", "have", "been"].map String.data).contains w)

/-- One sentence is verified when more than half of its qualifying words occur
in the lowercased context.  The source computes
`matchRatio = words.length > 0 ? matching/words : 0` and tests
`matchRatio > 0.5`; over integer counts this is exactly
`2 * matching > words` (which is false when `words = 0`). -/
def sentenceVerified (contextLower : Str) (sentence : Str) : Bool :=
  let words := claimWords sentence
  let matchingWords := words.filter (fun w => containsSub w contextLower)
  2 * matchingWords.length > words.length

/-- The sentence list of `verifyClaimsInContext`: split on `.`, `!`, `?` and
keep fragments whose trimmed length exceeds 20. -/
def claimSentences (response : Str) : List Str :=
  (response.splitOnP (fun c => c = '.' || c = '!' || c = '?')).filter
    (fun s => 20 < (trimStr s).length)

/-- Number of verified sentences of `verifyClaimsInContext`. -/
def verifiedCount (response context : Str) : Nat :=
  ((claimSentences response).filter (sentenceVerified (lower context))).length

/-- Models `assessConfidence(response, context)`, with the two verification-score
comparisons `score < 0.5` and `score < 0.8` (score = verified/total, 1.0 for
no qualifying sentences) carried as the exact integer comparisons
`2 * verified < total` and `5 * verified < 4 * total`. -/
def assessConfidence (response context : Str) : Conf :=
  let lowerResponse := lower response
  if uncertaintyPhrases.any (fun p => containsSub p lowerResponse) then .low
  else if 2 * response.length > 3 * context.length then .medium
  else if !(hasSourceMarker lowerResponse || hasQuotedSpan response)
      && 0 < context.length then .medium
  else
    let total := (claimSentences response).length
    let verified := verifiedCount response context
    if 2 * verified < total then .low
    else if 5 * verified < 4 * total then .medium
    else .high

/-! ## Query rewriting (llm.js `rewriteQuery`) -/

/-- Models `line.replace(/^[-•*]\s*/, '')`: drop one leading bullet character and the
whitespace after it. -/
def stripBullet (l : Str) : Str :=
  match l with
  | [] => []
  | c :: rest =>
    if c = '-' || c = '•' || c = '*' then rest.dropWhile isWs else l

/-- Post-processing of the rewriter backend's text: split into lines, strip
bullets, trim, keep lines of length in (5, 200), take at most 3. -/
def rewriteLines (text : Str) : List Str :=
  (((splitNl text).map (fun l => trimStr (stripBullet l))).filter
    (fun l => 5 < l.length && l.length < 200)).take 3

/-- Models `rewriteQuery(userQuery)` with the generative backend's outcome explicit:
a thrown backend error or an unusable (empty after filtering) output both
degrade to `[userQuery]`. -/
def rewriteQuery (userQuery : Str) (backendOutcome : Except Unit Str) :
    List Str :=
  match backendOutcome with
  | .error _ => [userQuery]
  | .ok text =>
    let rewrittenQueries := rewriteLines text
    if rewrittenQueries = [] then [userQuery] else rewrittenQueries

/-! ## Generator (llm.js `generateResponse`) and orchestrator (rag.js `query`) -/

/-- A source entry of the generator's response
(`{id, title, url, relevanceScore}`; the `toFixed(3)` formatting of the
score is not modelled, the score value itself is carried). -/
structure SourceRef where
  id : Nat
  title : Str
  url : Str
  relevanceScore : Option Int
deriving DecidableEq, Repr

/-- The generator's structured response (answer text, per-chunk sources,
confidence label). -/
structure GenResponse where
  answer : Str
  sources : List SourceRef
  confidence : Conf
deriving DecidableEq, Repr

/-- One line of the prior-conversation transcript. -/
def renderTurn (t : Turn) : Str :=
  (match t.role with
   | .user => "User: ".data
   | .assistant => "Assistant: ".data) ++ t.content

/-- The system-prompt text.  Its wording is explicitly out of scope (spec §1
non-goals); only its presence in the prompt structure is modelled. -/
def systemPrompt : Str := "SYSTEM INSTRUCTIONS".data

/-- The full prompt of `generateResponse`: system instructions, then (only
when history is non-empty) the last 3 turns, then the context block and the
user question. -/
def fullPrompt (query : Str) (context : Str) (history : List Turn) : Str :=
  if history = [] then
    systemPrompt ++ "\n\n".data ++ context ++
      "\n\nUser Question: ".data ++ query ++ "\n\nAssistant:".data
  else
    let historyText :=
      List.intercalate ['\n']
        ((history.drop (history.length - 3)).map renderTurn)
    systemPrompt ++ "\n\nPrevious conversation:\n".data ++ historyText ++
      "\n\n".data ++ context ++ "\n\nUser Question: ".data ++ query ++
      "\n\nAssistant:".data

/-- Models `generateResponse(query, retrievedChunks, conversationHistory)` with the
generative backend explicit.  A thrown backend call is caught and rethrown
as the generic generation failure (`Except.error ()`); on success the
answer, the source list and the assessed confidence are returned. -/
def generateResponse (genBackend : Str → Except Unit Str) (query : Str)
    (retrievedChunks : List RResult) (conversationHistory : List Turn) :
    Except Unit GenResponse :=
  let context := buildContext retrievedChunks
  match genBackend (fullPrompt query context conversationHistory) with
  | .error _ => .error ()
  | .ok text =>
    .ok { answer := text
          sources := retrievedChunks.enum.map (fun (p : Nat × RResult) =>
            { id := p.1 + 1
              title := p.2.metadata.title
              url := p.2.metadata.source
              relevanceScore :=
                match p.2.score with
                | none => none
                | some v => if v = 0 then none else some v })
          confidence := assessConfidence text context }

/-- The external collaborators of one pipeline run: the vector search, the
generative backend for answer generation, the generative backend for query
rewriting, and the clock. -/
structure Env where
  search : Str → Nat → Except Unit (List RResult)
  genBackend : Str → Except Unit Str
  rewriteBackend : Str → Except Unit Str
  now : Int

/-- The mutable state of `RAGService`: the retrieval cache and the
per-session conversation store. -/
structure RAGState where
  cache : List (Str × List RResult)
  conversationStore : ConvStore
deriving Repr

/-- Error classification of a failed `query` call. -/
inductive PipeErr where
  | retrieval
  | generation
deriving DecidableEq, Repr

/-- The structured result returned to the caller (wall-clock processing time
is not modelled). -/
structure QueryOut where
  answer : Str
  sources : List SourceRef
  confidence : Conf
  sessionId : Option Str
deriving DecidableEq, Repr

/-- The retrieval loop of `query` (lines 112–117): retrieve for each phrasing
in order, concatenating the results; the first thrown retrieval aborts the
loop and propagates. -/
def retrieveAll (search : Str → Nat → Except Unit (List RResult))
    (cache : List (Str × List RResult)) :
    List Str → Except Unit (List RResult) × List (Str × List RResult)
  | [] => (.ok [], cache)
  | q :: qs =>
    match retrieveContext search cache q ragTopK with
    | (.error e, cache1, _) => (.error e, cache1)
    | (.ok results, cache1, _) =>
      match retrieveAll search cache1 qs with
      | (.error e, cache2) => (.error e, cache2)
      | (.ok rest, cache2) => (.ok (results ++ rest), cache2)

/-- The phrasing list of one `query` call (lines 102–110): the normalized
query alone, or — under query expansion — the phrasings produced by the
rewriter for it. -/
def pipelineQueries (env : Env) (userQuery : Str) (useQueryExpansion : Bool) :
    List Str :=
  let normalizedQuery := normalizeQuery userQuery
  if useQueryExpansion then
    rewriteQuery normalizedQuery (env.rewriteBackend normalizedQuery)
  else [normalizedQuery]

/-- Models `RAGService.query(userQuery, sessionId, useQueryExpansion)` (the
`processQuery` operation of the spec): normalize, optionally expand,
retrieve per phrasing through the cache, deduplicate, rerank, truncate to
top-K, generate, and only after a successful generation append the user and
assistant turns to the conversation store. -/
def processQuery (env : Env) (st : RAGState) (userQuery : Str)
    (sessionId : Option Str) (useQueryExpansion : Bool) :
    Except PipeErr QueryOut × RAGState :=
  let normalizedQuery := normalizeQuery userQuery
  match retrieveAll env.search st.cache
      (pipelineQueries env userQuery useQueryExpansion) with
  | (.error _, cache1) => (.error .retrieval, { st with cache := cache1 })
  | (.ok allResults, cache1) =>
    let uniqueResults := dedupById allResults
    let rerankedResults := rerankResults uniqueResults normalizedQuery env.now
    let topResults := (rerankedResults.take ragTopK).map (·.base)
    let conversationHistory := getConversationHistory st.conversationStore sessionId
    match generateResponse env.genBackend userQuery topResults conversationHistory with
    | .error _ => (.error .generation, { st with cache := cache1 })
    | .ok response =>
      let store1 := addToConversationHistory st.conversationStore env.now
        sessionId .user userQuery
      let store2 := addToConversationHistory store1 env.now
        sessionId .assistant response.answer
      (.ok { answer := response.answer
             sources := response.sources
             confidence := response.confidence
             sessionId := sessionId },
       { cache := cache1, conversationStore := store2 })

/-! ## Supporting lemmas -/

theorem assocFind_assocSet_self {α β : Type} [DecidableEq α] (k : α) (v : β) :
    ∀ m : List (α × β), assocFind k (assocSet k v m) = some v := by
  intro m
  induction m with
  | nil => simp [assocSet, assocFind]
  | cons p ps ih =>
    by_cases h : p.1 = k
    · simp [assocSet, assocFind, h]
    · simp [assocSet, assocFind, h, ih]

theorem assocFind_assocSet_ne {α β : Type} [DecidableEq α] (k k' : α) (v : β)
    (h : k' ≠ k) :
    ∀ m : List (α × β), assocFind k' (assocSet k v m) = assocFind k' m := by
  intro m
  induction m with
  | nil =>
    simp only [assocSet, assocFind]
    exact if_neg (fun hc : k = k' => h hc.symm)
  | cons p ps ih =>
    by_cases hp : p.1 = k
    · simp [assocSet, assocFind, hp, h, Ne.symm h]
    · simp [assocSet, assocFind, hp, ih]

theorem mem_assocSet {α β : Type} [DecidableEq α] {k : α} {v : β} {p : α × β} :
    ∀ {m : List (α × β)}, p ∈ assocSet k v m → p = (k, v) ∨ p ∈ m := by
  intro m
  induction m with
  | nil => intro h; simp [assocSet] at h; exact Or.inl h
  | cons q qs ih =>
    intro h
    by_cases hq : q.1 = k
    · simp only [assocSet, hq, if_true, List.mem_cons] at h
      rcases h with h | h
      · exact Or.inl h
      · exact Or.inr (List.mem_cons_of_mem _ h)
    · simp only [assocSet, hq, if_false, List.mem_cons] at h
      rcases h with h | h
      · exact Or.inr (by simp [h])
      · rcases ih h with h' | h'
        · exact Or.inl h'
        · exact Or.inr (List.mem_cons_of_mem _ h')

theorem keys_assocSet {α β : Type} [DecidableEq α] (k : α) (v : β) :
    ∀ m : List (α × β), (assocSet k v m).map (·.1) =
      if k ∈ m.map (·.1) then m.map (·.1) else m.map (·.1) ++ [k] := by
  intro m
  induction m with
  | nil => simp [assocSet]
  | cons p ps ih =>
    by_cases hp : p.1 = k
    · simp [assocSet, hp]
    · simp only [assocSet, hp, if_false, List.map_cons, ih]
      by_cases hk : k ∈ ps.map (·.1)
      · simp [hk, Ne.symm hp]
      · simp [hk, Ne.symm hp]

theorem keys_nodup_assocSet {α β : Type} [DecidableEq α] (k : α) (v : β)
    {m : List (α × β)} (h : (m.map (·.1)).Nodup) :
    ((assocSet k v m).map (·.1)).Nodup := by
  rw [keys_assocSet]
  by_cases hk : k ∈ m.map (·.1)
  · simpa [hk] using h
  · simp only [hk, if_false]
    simpa [List.nodup_append, hk] using h

theorem assocFind_eq_some_iff_mem {α β : Type} [DecidableEq α] {k : α}
    {v : β} : ∀ {m : List (α × β)}, (m.map (·.1)).Nodup →
      (assocFind k m = some v ↔ (k, v) ∈ m) := by
  intro m
  induction m with
  | nil => intro _; simp [assocFind]
  | cons p ps ih =>
    intro hnd
    have hnd' : (ps.map (·.1)).Nodup := (List.nodup_cons.mp hnd).2
    have hni : p.1 ∉ ps.map (·.1) := (List.nodup_cons.mp hnd).1
    by_cases hp : p.1 = k
    · simp only [assocFind, hp, if_true, List.mem_cons]
      constructor
      · intro hv
        exact Or.inl (by cases hv; rw [← hp])
      · rintro (h | h)
        · rw [← h]
        · exfalso
          apply hni
          rw [hp]
          exact List.mem_map_of_mem (·.1) h
    · simp only [assocFind, hp, if_false, List.mem_cons]
      rw [ih hnd']
      constructor
      · exact Or.inr
      · rintro (h | h)
        · exact absurd (congrArg Prod.fst h).symm hp
        · exact h

/-- The deduplication `Map` of `query`, before taking `.values()`. -/
def dedupMap (rs : List RResult) : List (Nat × RResult) :=
  rs.foldl (fun m r => assocSet r.id r m) []

theorem dedupMap_keys_eq_id :
    ∀ (rs : List RResult) (m : List (Nat × RResult)),
      (∀ p ∈ m, p.1 = p.2.id) →
      ∀ p ∈ rs.foldl (fun m r => assocSet r.id r m) m, p.1 = p.2.id := by
  intro rs
  induction rs with
  | nil => intro m hm; simpa using hm
  | cons r rs ih =>
    intro m hm
    simp only [List.foldl_cons]
    refine ih _ (fun p hp => ?_)
    rcases mem_assocSet hp with h | h
    · rw [h]
    · exact hm p h

theorem dedupMap_keys_nodup :
    ∀ (rs : List RResult) (m : List (Nat × RResult)),
      (m.map (·.1)).Nodup →
      ((rs.foldl (fun m r => assocSet r.id r m) m).map (·.1)).Nodup := by
  intro rs
  induction rs with
  | nil => intro m hm; simpa using hm
  | cons r rs ih =>
    intro m hm
    simp only [List.foldl_cons]
    exact ih _ (keys_nodup_assocSet _ _ hm)

theorem dedupMap_find (k : Nat) :
    ∀ (rs : List RResult) (m : List (Nat × RResult)),
      assocFind k (rs.foldl (fun m r => assocSet r.id r m) m) =
        match rs.reverse.find? (fun x => x.id == k) with
        | some x => some x
        | none => assocFind k m := by
  intro rs
  induction rs with
  | nil => intro m; simp
  | cons r rs ih =>
    intro m
    simp only [List.foldl_cons, ih, List.reverse_cons, List.find?_append]
    cases hfind : rs.reverse.find? (fun x => x.id == k) with
    | some x => simp
    | none =>
      simp only [Option.none_orElse]
      by_cases hid : r.id = k
      · simp [List.find?, hid, assocFind_assocSet_self]
      · have hbeq : (r.id == k) = false := by simpa using hid
        simp [List.find?, hbeq,
          assocFind_assocSet_ne r.id k r (fun hc => hid hc.symm) m]

theorem insertDesc_perm (x : RankedResult) :
    ∀ l : List RankedResult, (insertDesc x l).Perm (x :: l) := by
  intro l
  induction l with
  | nil => exact List.Perm.refl _
  | cons y ys ih =>
    unfold insertDesc
    cases hxy : scoreGe x y with
    | true => simp
    | false =>
      simp only [Bool.false_eq_true, if_false]
      exact (ih.cons y).trans (List.Perm.swap x y ys)

theorem mem_insertDesc {z x : RankedResult} {l : List RankedResult} :
    z ∈ insertDesc x l ↔ z = x ∨ z ∈ l := by
  rw [(insertDesc_perm x l).mem_iff]
  simp

theorem insertDesc_pairwise (x : RankedResult) :
    ∀ {l : List RankedResult},
      l.Pairwise (fun a b => b.finalScore ≤ a.finalScore) →
      (insertDesc x l).Pairwise (fun a b => b.finalScore ≤ a.finalScore) := by
  intro l
  induction l with
  | nil => intro _; simp [insertDesc]
  | cons y ys ih =>
    intro h
    rw [List.pairwise_cons] at h
    obtain ⟨hy, hys⟩ := h
    unfold insertDesc
    cases hxy : scoreGe x y with
    | true =>
      have hle : y.finalScore ≤ x.finalScore := by
        simpa [scoreGe] using hxy
      simp only [if_true]
      rw [List.pairwise_cons]
      refine ⟨?_, List.pairwise_cons.mpr ⟨hy, hys⟩⟩
      intro z hz
      rcases List.mem_cons.mp hz with hz | hz
      · rw [hz]; exact hle
      · exact le_trans (hy z hz) hle
    | false =>
      have hlt : x.finalScore < y.finalScore := by
        have hb := hxy
        simp only [scoreGe, decide_eq_false_iff_not, not_le] at hb
        exact hb
      simp only [Bool.false_eq_true, if_false]
      rw [List.pairwise_cons]
      refine ⟨?_, ih hys⟩
      intro z hz
      rcases mem_insertDesc.mp hz with hz | hz
      · rw [hz]; exact le_of_lt hlt
      · exact hy z hz

theorem sortByScoreDesc_perm (l : List RankedResult) :
    (sortByScoreDesc l).Perm l := by
  induction l with
  | nil => exact List.Perm.refl _
  | cons x xs ih => exact (insertDesc_perm x _).trans (ih.cons x)

theorem sortByScoreDesc_pairwise (l : List RankedResult) :
    (sortByScoreDesc l).Pairwise (fun a b => b.finalScore ≤ a.finalScore) := by
  induction l with
  | nil => simp [sortByScoreDesc]
  | cons x xs ih => exact insertDesc_pairwise x ih

theorem boost_foldl (C : Str → Bool) :
    ∀ (ks : List Str) (b : Int),
      ks.foldl (fun acc k => if C k then acc + 10 else acc) b =
        b + 10 * ((ks.filter C).length : Int) := by
  intro ks
  induction ks with
  | nil => intro b; simp
  | cons k ks ih =>
    intro b
    by_cases hk : C k
    · simp only [List.foldl_cons, hk, if_true, ih, List.filter_cons,
        List.length_cons]
      push_cast
      ring
    · simp [List.foldl_cons, hk, ih, List.filter_cons]

/-- Closed form of `boostScore`: 10 hundredths (0.1) per extracted keyword
contained in the lowercased title, plus 5 hundredths (0.05) when recent. -/
theorem boostScore_eq (keywords : List Str) (now : Int) (r : RResult) :
    boostScore keywords now r =
      10 * ((keywords.filter
        (fun k => containsSub k (lower r.metadata.title))).length : Int) +
      (if now - r.metadata.scrapedAt < 2592000000 then 5 else 0) := by
  unfold boostScore
  rw [boost_foldl]
  ring_nf

theorem boostScore_nonneg (keywords : List Str) (now : Int) (r : RResult) :
    0 ≤ boostScore keywords now r := by
  rw [boostScore_eq]
  have h1 : (0 : Int) ≤ 10 * ((keywords.filter
      (fun k => containsSub k (lower r.metadata.title))).length : Int) := by
    positivity
  split <;> omega

/-- C7 (confirmed): for a deduplicated input list the reranker assigns each
passage the composite score `similarityScore (0 if absent) + 0.1 per
extracted query keyword occurring in the lowercased source title (uncapped)
+ 0.05 if indexed less than 30 days ago` (scores in hundredths: 10 and 5),
returns the passages sorted descending by composite score with no duplicate
ids, and every composite score is at least its raw similarity component. -/
theorem rerank_composite (rs : List RResult) (q : Str) (now : Int)
    (hids : (rs.map (·.id)).Nodup) :
    (∀ p ∈ rerankResults rs q now,
      p.finalScore = p.base.score.getD 0 +
        (10 * (((extractKeywords q).filter
          (fun k => containsSub k (lower p.base.metadata.title))).length : Int) +
         (if now - p.base.metadata.scrapedAt < 2592000000 then 5 else 0))) ∧
    ((rerankResults rs q now).map (·.base.id)).Nodup ∧
    (rerankResults rs q now).Pairwise
      (fun a b => b.finalScore ≤ a.finalScore) ∧
    ∀ p ∈ rerankResults rs q now, p.base.score.getD 0 ≤ p.finalScore := by
  have hre : rerankResults rs q now = sortByScoreDesc (rs.map (fun r =>
      { base := r,
        finalScore :=
          r.score.getD 0 + boostScore (extractKeywords q) now r })) := rfl
  have hmem : ∀ p ∈ rerankResults rs q now, ∃ r ∈ rs,
      p = { base := r,
            finalScore :=
              r.score.getD 0 + boostScore (extractKeywords q) now r } := by
    intro p hp
    rw [hre, (sortByScoreDesc_perm _).mem_iff] at hp
    obtain ⟨r, hr, hpr⟩ := List.mem_map.mp hp
    exact ⟨r, hr, hpr.symm⟩
  refine ⟨?_, ?_, ?_, ?_⟩
  · intro p hp
    obtain ⟨r, hr, hpr⟩ := hmem p hp
    subst hpr
    simp only
    rw [boostScore_eq]
  · rw [hre]
    have hpm := (sortByScoreDesc_perm (rs.map (fun r =>
      { base := r,
        finalScore :=
          r.score.getD 0 + boostScore (extractKeywords q) now r }))).map
      (fun p => p.base.id)
    rw [hpm.nodup_iff]
    simpa [List.map_map, Function.comp] using hids
  · rw [hre]
    exact sortByScoreDesc_pairwise _
  · intro p hp
    obtain ⟨r, hr, hpr⟩ := hmem p hp
    subst hpr
    simp only
    have hnn := boostScore_nonneg (extractKeywords q) now r
    omega

/-- C7 witness: the reranker theorem applied to a concrete two-passage list
(distinct ids, one title matching the query keyword). -/
theorem rerank_composite_witness :
    (rerankResults
      [⟨1, "a".data, some 80, ⟨"GitLab handbook".data, "u".data, 0⟩⟩,
       ⟨2, "b".data, some 90, ⟨"Other".data, "v".data, 0⟩⟩]
      "gitlab handbook".data 0).Pairwise
        (fun a b => b.finalScore ≤ a.finalScore) :=
  (rerank_composite
    [⟨1, "a".data, some 80, ⟨"GitLab handbook".data, "u".data, 0⟩⟩,
     ⟨2, "b".data, some 90, ⟨"Other".data, "v".data, 0⟩⟩]
    "gitlab handbook".data 0 (by decide)).2.2.1

/-- First-match evaluation of an ordered rule list (the claim's "first
matching rule of the ordered list"). -/
def firstMatch : List (Bool × Conf) → Conf → Conf
  | [], d => d
  | (c, l) :: rest, d => if c then l else firstMatch rest d

/-- The claim's per-sentence fraction: the share of qualifying words found
in the context, as a true rational (0 when no qualifying words). -/
def wordMatchFraction (contextLower : Str) (sentence : Str) : Rat :=
  let words := claimWords sentence
  if words.length = 0 then 0
  else ((words.filter (fun w => containsSub w contextLower)).length : Rat) /
    (words.length : Rat)

/-- The claim's per-sentence verification: fraction strictly above 1/2. -/
def sentenceVerifiedSpec (contextLower : Str) (sentence : Str) : Bool :=
  wordMatchFraction contextLower sentence > 1/2

/-- The claim's verification score: verified sentences over qualifying
sentences, 1.0 when no qualifying sentence exists. -/
def verificationScoreSpec (response context : Str) : Rat :=
  let sentences := claimSentences response
  if sentences.length = 0 then 1
  else ((sentences.filter (sentenceVerifiedSpec (lower context))).length : Rat) /
    (sentences.length : Rat)

/-- The confidence assessor exactly as the claim words it: an ordered list
of rules, first match wins, with genuine rational thresholds (1.5×, 0.5,
0.8). -/
def assessConfidenceSpec (answer context : Str) : Conf :=
  firstMatch
    [(uncertaintyPhrases.any (fun p => containsSub p (lower answer)),
        Conf.low),
     (decide ((answer.length : Rat) > 3/2 * (context.length : Rat)),
        Conf.medium),
     (decide (0 < context.length) &&
        !(hasSourceMarker (lower answer) || hasQuotedSpan answer),
        Conf.medium),
     (decide (verificationScoreSpec answer context < 1/2), Conf.low),
     (decide (verificationScoreSpec answer context < 4/5), Conf.medium)]
    Conf.high

theorem gt_three_halves_iff (x y : Nat) :
    ((x : Rat) > 3/2 * (y : Rat)) ↔ 2 * x > 3 * y := by
  rw [gt_iff_lt, div_mul_eq_mul_div,
    div_lt_iff (by norm_num : (0 : Rat) < 2)]
  constructor
  · intro h
    have h' : (3 * y : Nat) < (x * 2 : Nat) := by exact_mod_cast h
    omega
  · intro h
    have h' : (3 * y : Nat) < (x * 2 : Nat) := by omega
    exact_mod_cast h'

theorem fraction_gt_half_iff (m w : Nat) (hml : m ≤ w) :
    ((if w = 0 then (0 : Rat) else (m : Rat) / (w : Rat)) > 1/2) ↔
      2 * m > w := by
  by_cases hw : w = 0
  · subst hw
    simp only [if_true, gt_iff_lt]
    constructor
    · intro h; exact absurd h (by norm_num)
    · intro h; omega
  · have hwpos : (0 : Rat) < (w : Rat) :=
      Nat.cast_pos.mpr (Nat.pos_of_ne_zero hw)
    simp only [hw, if_false, gt_iff_lt]
    rw [div_lt_div_iff (by norm_num : (0 : Rat) < 2) hwpos]
    constructor
    · intro h
      have h' : (1 * w : Nat) < (m * 2 : Nat) := by exact_mod_cast h
      omega
    · intro h
      have h' : (1 * w : Nat) < (m * 2 : Nat) := by omega
      exact_mod_cast h'

theorem score_lt_half_iff (v t : Nat) :
    ((if t = 0 then (1 : Rat) else (v : Rat) / (t : Rat)) < 1/2) ↔
      2 * v < t := by
  by_cases ht : t = 0
  · subst ht
    simp only [if_true]
    constructor
    · intro h; exact absurd h (by norm_num)
    · intro h; omega
  · have htpos : (0 : Rat) < (t : Rat) :=
      Nat.cast_pos.mpr (Nat.pos_of_ne_zero ht)
    simp only [ht, if_false]
    rw [div_lt_div_iff htpos (by norm_num : (0 : Rat) < 2)]
    constructor
    · intro h
      have h' : (v * 2 : Nat) < (1 * t : Nat) := by exact_mod_cast h
      omega
    · intro h
      have h' : (v * 2 : Nat) < (1 * t : Nat) := by omega
      exact_mod_cast h'

theorem score_lt_four_fifths_iff (v t : Nat) :
    ((if t = 0 then (1 : Rat) else (v : Rat) / (t : Rat)) < 4/5) ↔
      5 * v < 4 * t := by
  by_cases ht : t = 0
  · subst ht
    simp only [if_true]
    constructor
    · intro h; exact absurd h (by norm_num)
    · intro h; omega
  · have htpos : (0 : Rat) < (t : Rat) :=
      Nat.cast_pos.mpr (Nat.pos_of_ne_zero ht)
    simp only [ht, if_false]
    rw [div_lt_div_iff htpos (by norm_num : (0 : Rat) < 5)]
    constructor
    · intro h
      have h' : (v * 5 : Nat) < (4 * t : Nat) := by exact_mod_cast h
      omega
    · intro h
      have h' : (v * 5 : Nat) < (4 * t : Nat) := by omega
      exact_mod_cast h'

theorem sentenceVerifiedSpec_eq (ctx s : Str) :
    sentenceVerifiedSpec ctx s = sentenceVerified ctx s := by
  unfold sentenceVerifiedSpec sentenceVerified wordMatchFraction
  have hml : ((claimWords s).filter
      (fun w => containsSub w ctx)).length ≤ (claimWords s).length :=
    List.length_filter_le _ _
  rw [decide_eq_decide]
  exact fraction_gt_half_iff _ _ hml

theorem verificationScoreSpec_eq (a c : Str) :
    verificationScoreSpec a c =
      (if (claimSentences a).length = 0 then (1 : Rat)
       else (verifiedCount a c : Rat) / ((claimSentences a).length : Rat)) := by
  unfold verificationScoreSpec verifiedCount
  rw [funext (fun s => sentenceVerifiedSpec_eq (lower c) s)]

/-- C6 (confirmed): `assessConfidence` returns exactly the label of the
first matching rule of the claim's ordered list: (1) low on an uncertainty
phrase; (2) medium when the answer is longer than 1.5× the context;
(3) medium when the context is non-empty and the answer has neither a
`[Source N]` marker nor a quoted span; (4) otherwise the verification score
over >20-character sentences (fraction of >3-character non-stopword words
found in the context, verified above 1/2; score 1.0 with no qualifying
sentences) maps to low below 0.5, medium in [0.5, 0.8), high at or above
0.8. -/
theorem assessConfidence_eq_spec (a c : Str) :
    assessConfidence a c = assessConfidenceSpec a c := by
  have hs1 : verificationScoreSpec a c < 1/2 ↔
      2 * verifiedCount a c < (claimSentences a).length := by
    rw [verificationScoreSpec_eq]
    exact score_lt_half_iff _ _
  have hs2 : verificationScoreSpec a c < 4/5 ↔
      5 * verifiedCount a c < 4 * (claimSentences a).length := by
    rw [verificationScoreSpec_eq]
    exact score_lt_four_fifths_iff _ _
  unfold assessConfidence assessConfidenceSpec
  simp only [firstMatch]
  rw [show decide ((a.length : Rat) > 3/2 * (c.length : Rat)) =
        decide (2 * a.length > 3 * c.length) from
      decide_eq_decide.mpr (gt_three_halves_iff _ _),
    show decide (verificationScoreSpec a c < 1/2) =
        decide (2 * verifiedCount a c < (claimSentences a).length) from
      decide_eq_decide.mpr hs1,
    show decide (verificationScoreSpec a c < 4/5) =
        decide (5 * verifiedCount a c < 4 * (claimSentences a).length) from
      decide_eq_decide.mpr hs2,
    Bool.and_comm (decide (0 < c.length))
      (!(hasSourceMarker (lower a) || hasQuotedSpan a))]
  cases hU : uncertaintyPhrases.any (fun p => containsSub p (lower a)) with
  | true => simp [hU]
  | false =>
    simp only [hU, Bool.false_eq_true, if_false]
    by_cases h2 : 2 * a.length > 3 * c.length
    · simp [h2]
    · simp only [if_neg h2, decide_eq_false h2, Bool.false_eq_true, if_false]
      cases h3 : (!(hasSourceMarker (lower a) || hasQuotedSpan a) &&
          decide (0 < c.length)) with
      | true => simp [h3]
      | false =>
        simp only [h3, Bool.false_eq_true, if_false]
        by_cases h4 : 2 * verifiedCount a c < (claimSentences a).length
        · simp [h4]
        · simp only [if_neg h4, decide_eq_false h4, Bool.false_eq_true,
            if_false]
          by_cases h5 : 5 * verifiedCount a c < 4 * (claimSentences a).length
          · simp [h5]
          · simp [if_neg h5, decide_eq_false h5]

/-- C1 counterexample: two retrieval results share id 1; the earlier one
(score 0.90) does NOT survive deduplication — the JS `Map` constructor keeps
the value of the LAST occurrence of a repeated key, so the survivor carries
the later occurrence's similarityScore (0.20). -/
theorem dedup_drops_first_occurrence :
    dedupById [⟨1, "a".data, some 90, ⟨"T".data, "u".data, 0⟩⟩,
               ⟨1, "b".data, some 20, ⟨"T".data, "u".data, 0⟩⟩] =
      [⟨1, "b".data, some 20, ⟨"T".data, "u".data, 0⟩⟩] ∧
    (⟨1, "a".data, some 90, ⟨"T".data, "u".data, 0⟩⟩ : RResult) ∉
      dedupById [⟨1, "a".data, some 90, ⟨"T".data, "u".data, 0⟩⟩,
                 ⟨1, "b".data, some 20, ⟨"T".data, "u".data, 0⟩⟩] := by
  exact ⟨rfl, by decide⟩

/-- C1 (amended): deduplication by passage id keeps exactly one instance per
id, but the surviving instance is the LAST occurrence in retrieval order
(the JS `Map` value for a repeated key is the last one set), not the first:
the deduplicated list has no duplicate ids, an instance survives iff it is
the last occurrence of its id, and every id present in the input is
represented. -/
theorem dedup_last_wins (rs : List RResult) :
    ((dedupById rs).map (·.id)).Nodup ∧
    (∀ r : RResult, r ∈ dedupById rs ↔
      rs.reverse.find? (fun x => x.id == r.id) = some r) ∧
    (∀ r ∈ rs, ∃ x ∈ dedupById rs, x.id = r.id) := by
  have hkeys : ∀ p ∈ dedupMap rs, p.1 = p.2.id :=
    dedupMap_keys_eq_id rs [] (by simp)
  have hnodup : ((dedupMap rs).map (·.1)).Nodup :=
    dedupMap_keys_nodup rs [] (by simp)
  have hdedup : dedupById rs = (dedupMap rs).map (·.2) := rfl
  have hchar : ∀ r : RResult, r ∈ dedupById rs ↔
      rs.reverse.find? (fun x => x.id == r.id) = some r := by
    intro r
    have hmem : r ∈ dedupById rs ↔ (r.id, r) ∈ dedupMap rs := by
      rw [hdedup, List.mem_map]
      constructor
      · rintro ⟨p, hp, hpr⟩
        have hid := hkeys p hp
        obtain ⟨a, b⟩ := p
        cases hpr
        have hid' : a = b.id := hid
        rw [← hid']
        exact hp
      · intro h
        exact ⟨(r.id, r), h, rfl⟩
    rw [hmem, ← assocFind_eq_some_iff_mem hnodup]
    have hfind := dedupMap_find r.id rs []
    rw [show (rs.foldl (fun m r => assocSet r.id r m) [] :
        List (Nat × RResult)) = dedupMap rs from rfl] at hfind
    rw [hfind]
    cases hf : rs.reverse.find? (fun x => x.id == r.id) with
    | some x => simp
    | none => simp [assocFind]
  refine ⟨?_, hchar, ?_⟩
  · have heq : (dedupById rs).map (·.id) = (dedupMap rs).map (·.1) := by
      rw [hdedup, List.map_map]
      exact List.map_congr_left (fun p hp => (hkeys p hp).symm)
    rw [heq]
    exact hnodup
  · intro r hr
    have hsome : (rs.reverse.find? (fun x => x.id == r.id)).isSome := by
      rw [List.find?_isSome]
      exact ⟨r, List.mem_reverse.mpr hr, by simp⟩
    obtain ⟨x, hx⟩ := Option.isSome_iff_exists.mp hsome
    have hpx : x.id = r.id := by simpa using List.find?_some hx
    refine ⟨x, ?_, hpx⟩
    rw [hchar x]
    rw [show (fun y : RResult => y.id == x.id) =
      (fun y : RResult => y.id == r.id) from funext (fun y => by rw [hpx])]
    exact hx

/-- C1 witness: the amended theorem applied at the concrete two-element list
with a repeated id: the later occurrence is the member. -/
theorem dedup_last_wins_witness :
    (⟨1, "b".data, some 20, ⟨"T".data, "u".data, 0⟩⟩ : RResult) ∈
      dedupById [⟨1, "a".data, some 90, ⟨"T".data, "u".data, 0⟩⟩,
                 ⟨1, "b".data, some 20, ⟨"T".data, "u".data, 0⟩⟩] :=
  ((dedup_last_wins
      [⟨1, "a".data, some 90, ⟨"T".data, "u".data, 0⟩⟩,
       ⟨1, "b".data, some 20, ⟨"T".data, "u".data, 0⟩⟩]).2.1
    ⟨1, "b".data, some 20, ⟨"T".data, "u".data, 0⟩⟩).mpr (by decide)

/-- A fresh service state: empty cache, empty conversation store. -/
def emptyState : RAGState := { cache := [], conversationStore := [] }

/-- A retriever that succeeds for the phrasing `phrasing one` and throws for
every other query string. -/
def phrasingFailSearch : Str → Nat → Except Unit (List RResult) :=
  fun q _ =>
    if q = "phrasing one".data then
      .ok [⟨1, "a".data, some 90, ⟨"T".data, "u".data, 0⟩⟩]
    else .error ()

/-- Environment whose rewriter yields two phrasings, of which retrieval
succeeds only for the first. -/
def phrasingFailEnv : Env :=
  { search := phrasingFailSearch
    genBackend := fun _ => .ok "answer text".data
    rewriteBackend := fun _ => .ok "phrasing one\nphrasing two".data
    now := 0 }

/-- C2 counterexample: the request is expanded into two phrasings; retrieval
succeeds (with a passage) for the first and throws for the second, yet the
whole request fails with a retrieval error — `query` does not proceed with
the successfully retrieved passages. -/
theorem retrieval_lost_phrasing_aborts :
    phrasingFailEnv.search "phrasing one".data ragTopK =
      .ok [⟨1, "a".data, some 90, ⟨"T".data, "u".data, 0⟩⟩] ∧
    phrasingFailEnv.search "phrasing two".data ragTopK = .error () ∧
    pipelineQueries phrasingFailEnv "user question".data true =
      ["phrasing one".data, "phrasing two".data] ∧
    (processQuery phrasingFailEnv emptyState "user question".data none true).1 =
      .error .retrieval := by
  exact ⟨rfl, rfl, rfl, rfl⟩

/-- C2 (amended): retrieval failure is never partial-tolerant: the per-
phrasing loop has no error handling, so as soon as retrieval throws for any
phrasing the whole request fails with a retrieval error (and the
conversation store is untouched), even when another phrasing already
retrieved passages successfully. -/
theorem retrieval_failure_is_total (env : Env) (st : RAGState)
    (userQuery : Str) (sessionId : Option Str) (useExp : Bool) (e : Unit)
    (h : (retrieveAll env.search st.cache
        (pipelineQueries env userQuery useExp)).1 = .error e) :
    (processQuery env st userQuery sessionId useExp).1 = .error .retrieval ∧
    (processQuery env st userQuery sessionId useExp).2.conversationStore =
      st.conversationStore := by
  cases hra : retrieveAll env.search st.cache
      (pipelineQueries env userQuery useExp) with
  | mk res cache1 =>
    rw [hra] at h
    cases res with
    | ok rs => exact absurd h (by simp)
    | error e' =>
      exact ⟨by simp [processQuery, hra], by simp [processQuery, hra]⟩

/-- C2 witness: the amended theorem applied to the concrete
partially-failing environment. -/
theorem retrieval_failure_is_total_witness :
    (processQuery phrasingFailEnv emptyState "user question".data none
      true).1 = .error .retrieval :=
  (retrieval_failure_is_total phrasingFailEnv emptyState "user question".data
    none true () rfl).1

/-- C4 (confirmed): if the generative backend call throws, the request fails
(with a retrieval error only when retrieval already failed before
generation, else with the generation error) and the conversation store is
exactly what it was before the request: neither the user turn nor the
assistant turn is appended. -/
theorem generation_failure_preserves_memory (env : Env) (st : RAGState)
    (userQuery : Str) (sessionId : Option Str) (useExp : Bool)
    (hgen : ∀ p, env.genBackend p = .error ()) :
    ((processQuery env st userQuery sessionId useExp).1 = .error .retrieval ∨
     (processQuery env st userQuery sessionId useExp).1 =
       .error .generation) ∧
    (processQuery env st userQuery sessionId useExp).2.conversationStore =
      st.conversationStore := by
  cases hra : retrieveAll env.search st.cache
      (pipelineQueries env userQuery useExp) with
  | mk res cache1 =>
    cases res with
    | error e =>
      exact ⟨Or.inl (by simp [processQuery, hra]),
        by simp [processQuery, hra]⟩
    | ok allResults =>
      refine ⟨Or.inr ?_, ?_⟩ <;>
        simp [processQuery, hra, generateResponse, hgen]

/-- Environment whose retriever succeeds but whose generative backend always
throws. -/
def genFailEnv : Env :=
  { search := fun _ _ => .ok [⟨1, "a".data, some 90, ⟨"T".data, "u".data, 0⟩⟩]
    genBackend := fun _ => .error ()
    rewriteBackend := fun _ => .error ()
    now := 0 }

/-- C4 witness: with a throwing generative backend and a fresh state, the
conversation store is still empty after the failed request. -/
theorem generation_failure_preserves_memory_witness :
    (processQuery genFailEnv emptyState "q".data (some "sess".data)
      false).2.conversationStore = [] :=
  (generation_failure_preserves_memory genFailEnv emptyState "q".data
    (some "sess".data) false (fun _ => rfl)).2

/-- The cache component of the state after `query` is exactly the cache
produced by the retrieval loop — generation and history writes never touch
it. -/
theorem processQuery_cache (env : Env) (st : RAGState) (userQuery : Str)
    (sessionId : Option Str) (useExp : Bool) :
    (processQuery env st userQuery sessionId useExp).2.cache =
      (retrieveAll env.search st.cache
        (pipelineQueries env userQuery useExp)).2 := by
  cases hra : retrieveAll env.search st.cache
      (pipelineQueries env userQuery useExp) with
  | mk res cache1 =>
    cases res with
    | error e => simp [processQuery, hra]
    | ok allResults =>
      simp only [processQuery, hra]
      split <;> rfl

/-- C8 (confirmed): `retrieveContext` computes its cache key with no session
qualifier (`getCacheKey(query)`), so the key is the normalized query text
alone; the whole cache evolution of `query` is independent of the supplied
session id; and once one request has populated the cache for a normalized
query, a second request with the same normalized query (any session) is a
cache hit that returns the cached passages without invoking the retriever. -/
theorem cache_shared_across_sessions (env : Env) (st : RAGState)
    (q q1 q2 : Str) (sid1 sid2 : Option Str) (useExp : Bool)
    (search search' : Str → Nat → Except Unit (List RResult))
    (cache c2 : List (Str × List RResult)) (rs : List RResult) (b : Bool)
    (hq : normalizeQuery q1 = normalizeQuery q2)
    (h1 : retrieveContext search cache q1 ragTopK = (.ok rs, c2, b)) :
    getCacheKey q none = normalizeQuery q ∧
    (processQuery env st q sid1 useExp).2.cache =
      (processQuery env st q sid2 useExp).2.cache ∧
    retrieveContext search' c2 q2 ragTopK = (.ok rs, c2, false) := by
  refine ⟨rfl, by rw [processQuery_cache, processQuery_cache], ?_⟩
  have hkey : getCacheKey q2 none = getCacheKey q1 none := by
    simp [getCacheKey, hq]
  have hfind : assocFind (getCacheKey q1 none) c2 = some rs := by
    unfold retrieveContext at h1
    cases hf : assocFind (getCacheKey q1 none) cache with
    | some cached =>
      simp only [hf, Prod.mk.injEq] at h1
      obtain ⟨hrs, hc2, _⟩ := h1
      rw [← hc2, hf, Except.ok.inj hrs]
    | none =>
      cases hs : search q1 ragTopK with
      | error e => simp [hf, hs] at h1
      | ok results =>
        simp only [hf, hs, Prod.mk.injEq] at h1
        obtain ⟨hrs, hc2, _⟩ := h1
        rw [← hc2, ← Except.ok.inj hrs]
        exact assocFind_assocSet_self _ _ _
  unfold retrieveContext
  rw [hkey]
  simp [hfind]

/-- C8 witness: a query and a differently-spaced, differently-cased variant
with the same normalization: after the first call populates the cache, the
second call hits the cache even with a retriever that always throws. -/
theorem cache_shared_across_sessions_witness :
    retrieveContext (fun _ _ => .error ())
      (assocSet "what is gitlab?".data
        [⟨1, "a".data, some 90, ⟨"T".data, "u".data, 0⟩⟩] [])
      " what IS gitlab? ".data ragTopK =
      (.ok [⟨1, "a".data, some 90, ⟨"T".data, "u".data, 0⟩⟩],
       assocSet "what is gitlab?".data
         [⟨1, "a".data, some 90, ⟨"T".data, "u".data, 0⟩⟩] [], false) :=
  (cache_shared_across_sessions phrasingFailEnv emptyState [] "What is GitLab?".data
    " what IS gitlab? ".data none none false
    (fun _ _ => .ok [⟨1, "a".data, some 90, ⟨"T".data, "u".data, 0⟩⟩])
    (fun _ _ => .error ()) [] _ _ _ (by decide) rfl).2.2

/-- C3 counterexample: a passage whose similarity score is present and equal
to 0 — strictly below the 0.7 threshold — nevertheless survives the
threshold filter of `retrieveContext` (JS `!result.score` is true for a
score of 0), so the claim that every passage with a present score strictly
below the threshold is dropped is false on the code. -/
theorem retrieveContext_keeps_zero_score :
    (retrieveContext
        (fun _ _ => .ok [⟨1, "t".data, some 0, ⟨"T".data, "u".data, 0⟩⟩])
        [] "q".data ragTopK).1 =
      .ok [⟨1, "t".data, some 0, ⟨"T".data, "u".data, 0⟩⟩] ∧
    (some (0 : Int)).isSome = true ∧ (0 : Int) < similarityThreshold := by
  refine ⟨rfl, by decide, by decide⟩

/-- C3 (amended): on a cache miss with a successful vector search, the
retrieval step keeps exactly those passages whose score is missing, zero
(both JS-falsy), or at least the 0.7 threshold; a passage with a present
non-zero score strictly below the threshold is dropped, and a passage is
never dropped solely for lacking a score. -/
theorem retrieveContext_threshold_filter
    (search : Str → Nat → Except Unit (List RResult))
    (cache : List (Str × List RResult)) (q : Str) (rs : List RResult)
    (hmiss : assocFind (getCacheKey q none) cache = none)
    (hok : search q ragTopK = .ok rs) :
    (retrieveContext search cache q ragTopK).1 = .ok (rs.filter keepResult) ∧
    ∀ r ∈ rs, (r ∈ rs.filter keepResult ↔
      r.score = none ∨ r.score = some 0 ∨
        ∃ v, r.score = some v ∧ similarityThreshold ≤ v) := by
  constructor
  · simp [retrieveContext, hmiss, hok]
  · intro r hr
    simp only [List.mem_filter, hr, true_and]
    cases hs : r.score with
    | none => simp [keepResult, hs]
    | some v =>
      simp only [keepResult, hs, Bool.or_eq_true, decide_eq_true_eq]
      constructor
      · rintro (h0 | hge)
        · exact Or.inr (Or.inl (by simp [h0]))
        · exact Or.inr (Or.inr ⟨v, rfl, hge⟩)
      · rintro (h | h | ⟨w, hw, hge⟩)
        · simp at h
        · simp at h; exact Or.inl h
        · cases hw; exact Or.inr hge

/-- C3 witness: the amended theorem applied at a concrete search returning
one passage above and one below the threshold. -/
theorem retrieveContext_threshold_filter_witness :
    (retrieveContext
        (fun _ _ => .ok [⟨1, "a".data, some 90, ⟨"T".data, "u".data, 0⟩⟩,
                         ⟨2, "b".data, some 50, ⟨"T".data, "u".data, 0⟩⟩])
        [] "q".data ragTopK).1 =
      .ok [⟨1, "a".data, some 90, ⟨"T".data, "u".data, 0⟩⟩] := by
  have h := retrieveContext_threshold_filter
    (fun _ _ => .ok [⟨1, "a".data, some 90, ⟨"T".data, "u".data, 0⟩⟩,
                     ⟨2, "b".data, some 50, ⟨"T".data, "u".data, 0⟩⟩])
    [] "q".data
    [⟨1, "a".data, some 90, ⟨"T".data, "u".data, 0⟩⟩,
     ⟨2, "b".data, some 50, ⟨"T".data, "u".data, 0⟩⟩]
    (by decide) rfl
  exact h.1.trans rfl

/-- C5 (confirmed): conversation memory keeps at most 10 turns per session.
An absent or empty session id makes the append a no-op; a history of at
most 10 turns still has at most 10 turns after an append (the single
`shift()` suffices because the cap was already enforced); and appending 11
turns to a fresh session leaves exactly the last 10, the first turn
evicted. -/
theorem conversation_cap (store : ConvStore) (now : Int) (sid : Str)
    (role : Role) (content : Str)
    (h : ((assocFind sid store).getD []).length ≤ 10) :
    addToConversationHistory store now none role content = store ∧
    addToConversationHistory store now (some []) role content = store ∧
    ((assocFind sid
        (addToConversationHistory store now (some sid) role content)).getD
          []).length ≤ 10 ∧
    assocFind "s".data
        ((List.range 11).foldl
          (fun st i =>
            addToConversationHistory st 0 (some "s".data) .user
              (Nat.repr i).data) []) =
      some (((List.range 11).drop 1).map
        (fun i => ⟨.user, (Nat.repr i).data, 0⟩)) := by
  refine ⟨rfl, rfl, ?_, by decide⟩
  cases hsid : sid.isEmpty with
  | true =>
    simp only [addToConversationHistory, hsid, if_true]
    exact h
  | false =>
    simp only [addToConversationHistory, hsid, Bool.false_eq_true, if_false,
      assocFind_assocSet_self, Option.getD_some]
    split
    · next hlen =>
      simp only [List.length_drop, List.length_append, List.length_cons,
        List.length_nil]
      omega
    · next hlen =>
      simp only [List.length_append, List.length_cons, List.length_nil] at *
      omega

/-- C5 witness: the cap theorem applied to a concrete store already holding
10 turns in session `s`. -/
theorem conversation_cap_witness :
    ((assocFind "s".data
        (addToConversationHistory
          [("s".data, (List.range 10).map (fun i => ⟨.user, [], Int.ofNat i⟩))]
          99 (some "s".data) .assistant "done".data)).getD []).length ≤ 10 := by
  have h := conversation_cap
    [("s".data, (List.range 10).map (fun i => ⟨.user, [], Int.ofNat i⟩))]
    99 "s".data .assistant "done".data (by decide)
  exact h.2.2.1

/-- C9 (confirmed): the query rewriter always returns between 1 and 3
phrasings; a thrown generative-backend call, and a backend output with no
usable line after filtering, both yield exactly the single-element list
holding the original query unchanged. -/
theorem rewriteQuery_bounds (q : Str) (outcome : Except Unit Str) :
    1 ≤ (rewriteQuery q outcome).length ∧
    (rewriteQuery q outcome).length ≤ 3 ∧
    (outcome = .error () → rewriteQuery q outcome = [q]) ∧
    (∀ text, outcome = .ok text → rewriteLines text = [] →
      rewriteQuery q outcome = [q]) := by
  refine ⟨?_, ?_, ?_, ?_⟩
  · cases outcome with
    | error e => simp [rewriteQuery]
    | ok text =>
      simp only [rewriteQuery]
      split
      · simp
      · next hne => exact List.length_pos.mpr hne
  · cases outcome with
    | error e => simp [rewriteQuery]
    | ok text =>
      simp only [rewriteQuery]
      split
      · simp
      · simp only [rewriteLines, List.length_take]
        exact min_le_left _ _
  · intro hc
    cases outcome with
    | error e => cases e; rfl
    | ok text => exact Except.noConfusion hc
  · intro t ht hempty
    cases outcome with
    | error e => exact Except.noConfusion ht
    | ok text =>
      have htt : text = t := by injection ht
      subst htt
      simp [rewriteQuery, hempty]

/-- C9 witness: the bounds theorem applied to a thrown backend call on a
concrete query. -/
theorem rewriteQuery_bounds_witness :
    rewriteQuery "gitlab values".data (.error ()) = ["gitlab values".data] :=
  (rewriteQuery_bounds "gitlab values".data (.error ())).2.2.1 rfl

/-- C10 (confirmed): with zero surviving passages the assembled context is
the empty string, and every non-empty answer containing no uncertainty
phrase is then assessed exactly `medium` (the answer-longer-than-1.5×context
rule fires against the empty context before the citation and verification
rules), never `high`. -/
theorem empty_context_medium (answer : Str) (hne : answer ≠ [])
    (hunc : uncertaintyPhrases.any
      (fun p => containsSub p (lower answer)) = false) :
    buildContext [] = [] ∧
    assessConfidence answer (buildContext []) = .medium := by
  refine ⟨rfl, ?_⟩
  simp only [buildContext, if_pos rfl]
  simp only [assessConfidence, hunc, Bool.false_eq_true, if_false,
    List.length_nil, Nat.mul_zero]
  have hpos : 0 < answer.length := List.length_pos.mpr hne
  have : 2 * answer.length > 0 := by omega
  simp [this]

/-- C10 witness: a concrete confident-sounding answer against the empty
context is assessed `medium`. -/
theorem empty_context_medium_witness :
    assessConfidence "GitLab ships every month.".data (buildContext []) =
      .medium :=
  (empty_context_medium "GitLab ships every month.".data (by decide)
    (by decide)).2

end GitLabBot
